import Mathlib

/-!
# FrameDAG: a verified shallow embedding of `DAG.h`

This file embeds the FrameDAG header (`ThreadPool` and the template class
`DAG<T>`) into Lean 4 and proves properties of the embedded definitions.

Modelling conventions:
* `std::vector` fields become `List`s; an unguarded `v[i]` access on a
  possibly-out-of-range index is modelled with `List.get?` (no value on an
  out-of-range index) or, where the surrounding code guarantees the bound,
  with `List.getD`.
* `std::any` becomes an `Option` of a dependent pair: a runtime type tag
  from the closed universe `AnyTag` together with a value of the denoted
  type; an empty `std::any` is `none`.  `std::any_cast` checks the tag.
* `std::atomic<int>` / `std::atomic<size_t>` counters become `Int` / `Nat`
  values in an explicit state.  A default-constructed (never stored)
  `std::atomic<size_t>` is uninitialized under C++17, which the build files
  select, so the `remaining` member of a `DAG` is an `Option Nat` whose
  `none` means "never initialized".
* The concurrent execution of `execute_parallel` is modelled as a small-step
  scheduler: the pool's task queue becomes a `pending` list of node ids and
  one step runs one dispatch task to completion (the user executor, the
  atomic `fetch_sub` loop over the successors, and the decrement of the
  global counter).  The `fetch_sub` operations are the only shared-state
  accesses of a dispatch task and each is atomic in the source, so every
  interleaving of the real code is covered by some sequence of steps with an
  arbitrary choice of which queued task runs next.
-/

/-! ## Ports: the `std::any` model -/

/-- Closed universe of runtime types stored in a port (`std::any`).  The
repository's own test program stores `int`; further tags make the
type-mismatch behaviour of `std::any_cast` non-degenerate. -/
inductive AnyTag : Type
  | tInt
  | tStr
  | tBool
deriving DecidableEq, Repr

/-- Denotation of a runtime type tag. -/
def AnyTag.interp : AnyTag → Type
  | .tInt => Int
  | .tStr => String
  | .tBool => Bool

/-- `std::any`: empty, or a value tagged with its runtime type. -/
def AnyV : Type := Option ((t : AnyTag) × t.interp)

/-- The empty `std::any()`. -/
def AnyV.empty : AnyV := none

/-- Build a `std::any` holding a value of tagged type `t`. -/
def AnyV.mk (t : AnyTag) (v : t.interp) : AnyV := some ⟨t, v⟩

/-- Errors of the partial operations: `std::any_cast` throwing
`std::bad_any_cast`, and an unguarded out-of-range `std::vector` index
(undefined behaviour in the source; no value in this embedding). -/
inductive PortErr : Type
  | badAnyCast
  | oobAccess
deriving DecidableEq, Repr

/-- `std::any_cast<ValType>`: yields the stored value when the runtime tag
matches the requested type, otherwise throws `bad_any_cast` (also on an
empty `any`). -/
def anyCast (t : AnyTag) (a : AnyV) : Except PortErr t.interp :=
  match a with
  | none => .error .badAnyCast
  | some ⟨t', v⟩ =>
      if h : t' = t then .ok (h ▸ v) else .error .badAnyCast

/-! ## The graph store `DAG<T>` -/

/-- `DAG<T>::Node`: the caller payload plus the type-erased output port. -/
structure DAGNode (T : Type) where
  data : T
  output : AnyV

/-- The `DAG<T>` object: graph structure plus the runtime (per-pass)
state.  `current_indegree` is the vector of live in-degree atomics;
`remaining` is the global remaining-node atomic, `none` while it has never
been stored (default-constructed `std::atomic<size_t>` under C++17). -/
structure DAG (T : Type) where
  nodes : List (DAGNode T)
  adj : List (List Nat)
  base_indegree : List Int
  current_indegree : List Int
  remaining : Option Nat

/-- A freshly constructed `DAG<T>`: all vectors empty, `remaining` never
stored. -/
def DAG.empty (T : Type) : DAG T :=
  { nodes := [], adj := [], base_indegree := [], current_indegree := []
    remaining := none }

/-- `DAG::add_node`: appends a node with an empty output port, an empty
successor list and static in-degree `0`; the returned id is the previous
node count. -/
def DAG.add_node (d : DAG T) (x : T) : DAG T × Nat :=
  ({ d with
      nodes := d.nodes ++ [⟨x, AnyV.empty⟩]
      adj := d.adj ++ [[]]
      base_indegree := d.base_indegree ++ [0] },
   d.nodes.length)

/-- `DAG::add_edge`: returns unchanged (no-op) when either handle is out of
range, otherwise appends `t` to `f`'s successor list and increments `t`'s
static in-degree. -/
def DAG.add_edge (d : DAG T) (f t : Nat) : DAG T :=
  if f ≥ d.nodes.length ∨ t ≥ d.nodes.length then d
  else
    { d with
        adj := d.adj.set f (d.adj.getD f [] ++ [t])
        base_indegree :=
          d.base_indegree.set t (d.base_indegree.getD t 0 + 1) }

/-- `DAG::reset`: stores `base_indegree[i]` into every live counter
(allocating the counter vector at the node count when its size differs) and
stores the node count into `remaining`. -/
def DAG.reset (d : DAG T) : DAG T :=
  { d with
      current_indegree :=
        (List.range d.nodes.length).map (fun i => d.base_indegree.getD i 0)
      remaining := some d.nodes.length }

/-- `DAG::set_port_value`: `nodes[id].output = value` with an unguarded
index: no value (undefined behaviour) when `id` is out of range. -/
def DAG.set_port_value (d : DAG T) (id : Nat) (v : AnyV) :
    Except PortErr (DAG T) :=
  match d.nodes.get? id with
  | none => .error .oobAccess
  | some nd => .ok { d with nodes := d.nodes.set id { nd with output := v } }

/-- `DAG::get_port_value<ValType>`: `any_cast<ValType>(nodes[id].output)`
with an unguarded index. -/
def DAG.get_port_value (t : AnyTag) (d : DAG T) (id : Nat) :
    Except PortErr t.interp :=
  match d.nodes.get? id with
  | none => .error .oobAccess
  | some nd => anyCast t nd.output

/-- `DAG::operator[]`: `return nodes[id];` — the body yields the whole
`Node` record (payload *and* port slot), although the declaration promises
a `T&`; the unguarded index has no value out of range. -/
def DAG.idx (d : DAG T) (id : Nat) : Option (DAGNode T) :=
  d.nodes.get? id

/-- `DAG::size`: the node count. -/
def DAG.size (d : DAG T) : Nat := d.nodes.length

/-! ## The thread pool -/

/-- One queued `std::function<void()>` task, identified opaquely. -/
abbrev PoolTask : Type := Nat

/-- The shared state of a `ThreadPool`: the spawned workers (one entry per
`emplace_back` of the construction loop), the FIFO task queue, and the
`stop` flag. -/
structure ThreadPoolState where
  workers : List Nat
  tasks : List PoolTask
  stop : Bool
deriving DecidableEq, Repr

/-- `ThreadPool::ThreadPool(threads)`: the construction loop spawns exactly
`threads` workers; the queue is empty and `stop` is false.  The defaulted
argument is `std::thread::hardware_concurrency()`. -/
def mkThreadPool (threads : Nat) : ThreadPoolState :=
  { workers := List.range threads, tasks := [], stop := false }

/-- `ThreadPool::enqueue`: pushes the task at the back of the FIFO queue
(no check of `stop`). -/
def ThreadPoolState.enqueue (s : ThreadPoolState) (t : PoolTask) :
    ThreadPoolState :=
  { s with tasks := s.tasks ++ [t] }

/-- The destructor's first action: set `stop` under the queue mutex (then
wake all workers). -/
def ThreadPoolState.signalStop (s : ThreadPoolState) : ThreadPoolState :=
  { s with stop := true }

/-- What one worker does at the top of its loop. -/
inductive WorkerAct : Type
  | exitLoop
  | runTask (t : PoolTask)
deriving DecidableEq, Repr

/-- One iteration of the worker loop, as observed after the condition
variable releases the worker: with an empty queue the worker returns if
`stop` is set and otherwise keeps waiting (`none` = still blocked); with a
non-empty queue it pops the front task and runs it to completion. -/
def workerStep (s : ThreadPoolState) :
    Option (WorkerAct × ThreadPoolState) :=
  match s.tasks with
  | [] => if s.stop then some (.exitLoop, s) else none
  | t :: rest => some (.runTask t, { s with tasks := rest })

/-! ## The execution engine of `execute_parallel`

The static part of the graph seen by a pass. -/

/-- The graph data read (never written) during a pass: the node count, the
successor lists and the static in-degrees. -/
structure SGraph where
  n : Nat
  adj : List (List Nat)
  base : List Int

/-- The static part of a `DAG<T>` object. -/
def DAG.toGraph (d : DAG T) : SGraph :=
  { n := d.nodes.length, adj := d.adj, base := d.base_indegree }

/-- Total number of edge occurrences into `v`: the number of times `v`
appears across all successor lists.  (`add_edge` keeps this equal to the
static in-degree.) -/
def totalInto (G : SGraph) (v : Nat) : Nat :=
  ((List.range G.n).map (fun u => (G.adj.getD u []).count v)).sum

/-- Number of edge occurrences into `v` from the nodes of the list `E`. -/
def execCount (G : SGraph) (E : List Nat) (v : Nat) : Nat :=
  (E.map (fun u => (G.adj.getD u []).count v)).sum

/-- Well-formedness of the static graph data, as established by
`add_node`/`add_edge`: the vectors have length `n`, successor ids are in
range, and each static in-degree counts the edge occurrences into its
node. -/
structure WfG (G : SGraph) : Prop where
  lenAdj : G.adj.length = G.n
  lenBase : G.base.length = G.n
  succLt : ∀ u : Nat, ∀ v ∈ G.adj.getD u [], v < G.n
  baseVal : ∀ v : Nat, v < G.n → G.base.getD v 0 = (totalInto G v : Int)

/-- Acyclicity, witnessed by a topological numbering: every edge strictly
increases the rank. -/
def AcyclicG (G : SGraph) : Prop :=
  ∃ rank : Nat → Nat, ∀ u v : Nat, v ∈ G.adj.getD u [] → rank u < rank v

/-- The run-state of one pass: the live in-degree counters, the global
remaining counter, the dispatch tasks sitting in the pool's queue (by node
id), and the log of executor invocations in completion order. -/
structure ExecState where
  ci : List Int
  remaining : Nat
  pending : List Nat
  executed : List Nat

/-- The dependency-resolution loop of a dispatch task: for each successor
occurrence `v` (in list order) perform `current_indegree[v].fetch_sub(1)`
and collect `v` for enqueueing exactly when the fetched (pre-decrement)
value was `1`. -/
def resolve : List Nat → List Int → List Int × List Nat
  | [], ci => (ci, [])
  | v :: rest, ci =>
      let old := ci.getD v 0
      let r := resolve rest (ci.set v (old - 1))
      if old = 1 then (r.1, v :: r.2) else (r.1, r.2)

/-- The run-state after the dispatch task of node `u` runs to completion,
where the queue held `p` before it and `q` after it: the executor
invocation is logged, every successor counter is decremented with the
counters that hit zero enqueued, and the global counter is decremented. -/
def dispatchStep (G : SGraph) (s : ExecState) (u : Nat) (p q : List Nat) :
    ExecState :=
  let r := resolve (G.adj.getD u []) s.ci
  { ci := r.1
    remaining := s.remaining - 1
    pending := (p ++ q) ++ r.2
    executed := s.executed ++ [u] }

/-- One scheduling step: some dispatch task in the queue runs to
completion.  The split `p ++ u :: q` picks an arbitrary queued task, so the
relation covers every interleaving of the workers. -/
inductive EStep (G : SGraph) : ExecState → ExecState → Prop
  | dispatch (s : ExecState) (u : Nat) (p q : List Nat)
      (hp : s.pending = p ++ u :: q) :
      EStep G s (dispatchStep G s u p q)

/-- The run-state right after `reset()` and the seed phase of
`execute_parallel`: counters hold the static in-degrees, the global counter
holds the node count, and every node with static in-degree `0` is enqueued
(in id order). -/
def initState (G : SGraph) : ExecState :=
  { ci := G.base
    remaining := G.n
    pending := (List.range G.n).filter (fun i => G.base.getD i 0 = 0)
    executed := [] }

/-- Run-states reachable during a pass. -/
def Reach (G : SGraph) (s : ExecState) : Prop :=
  Relation.ReflTransGen (EStep G) (initState G) s

/-- A deterministic scheduler: `k` chooses which queued task runs next
(modulo the queue length); with an empty queue nothing happens. -/
def stepPick (G : SGraph) (s : ExecState) (k : Nat) : ExecState :=
  match s.pending with
  | [] => s
  | t :: rest =>
      let i := k % (t :: rest).length
      dispatchStep G s ((t :: rest).getD i 0)
        ((t :: rest).take i) ((t :: rest).drop (i + 1))

/-- Run a whole schedule. -/
def runSched (G : SGraph) (sched : List Nat) (s : ExecState) : ExecState :=
  sched.foldl (stepPick G) s

/-- `DAG::execute_parallel`: returns immediately on an empty graph
(leaving the run-state untouched); otherwise resets the run-state, seeds
the ready nodes and lets the pool run dispatch tasks until the global
counter reaches zero, then writes the final counters back into the
object.  The schedule argument resolves the scheduling nondeterminism of
the worker threads. -/
def DAG.execute_parallel (d : DAG T) (sched : List Nat) : DAG T :=
  if d.nodes.isEmpty then d
  else
    let s := runSched d.toGraph sched (initState d.toGraph)
    { d with current_indegree := s.ci, remaining := some s.remaining }

/-! ## Concrete graphs used as witnesses -/

/-- A one-node graph: `DAG<int> g; g.add_node(5);`. -/
def exampleDag : DAG Int := ((DAG.empty Int).add_node 5).1

/-- The diamond of the repository's test program: InputReader feeding
WorkerA and WorkerB, both feeding Aggregator. -/
def diamondDag : DAG Int :=
  ((((((DAG.empty Int).add_node 0).1.add_node 1).1.add_node 2).1.add_node
      3).1.add_edge 0 1).add_edge 0 2 |>.add_edge 1 3 |>.add_edge 2 3

/-! ## Graph store theorems -/

/-- C4: `reset` stores every node's static in-degree into its live counter
and the node count into the global remaining counter, whatever the
run-state held beforehand, and doing it twice is the same as doing it
once. -/
theorem reset_spec (T : Type) (d : DAG T) :
    (d.reset).current_indegree.length = d.nodes.length ∧
    (∀ i, i < d.nodes.length →
      (d.reset).current_indegree.getD i 0 = d.base_indegree.getD i 0) ∧
    (d.reset).remaining = some d.nodes.length ∧
    d.reset.reset = d.reset := by
  refine ⟨by simp [DAG.reset], ?_, rfl, rfl⟩
  intro i hi
  simp [DAG.reset, List.getD, List.getElem?_map, List.getElem?_range, hi]

/-- Witness for C4 on the one-node graph. -/
theorem reset_spec_witness :
    (exampleDag.reset).current_indegree.getD 0 0
      = exampleDag.base_indegree.getD 0 0 :=
  (reset_spec Int exampleDag).2.1 0 (by decide)

/-- C5: `add_edge` with an out-of-range handle leaves the object exactly
unchanged; with both handles in range it only appends `t` to `f`'s
successor list and bumps `t`'s static in-degree. -/
theorem add_edge_spec (T : Type) (d : DAG T) (f t : Nat) :
    (¬(f < d.nodes.length ∧ t < d.nodes.length) → d.add_edge f t = d) ∧
    (f < d.nodes.length → t < d.nodes.length →
      (d.add_edge f t).nodes = d.nodes ∧
      (d.add_edge f t).adj = d.adj.set f (d.adj.getD f [] ++ [t]) ∧
      (d.add_edge f t).base_indegree
        = d.base_indegree.set t (d.base_indegree.getD t 0 + 1) ∧
      (d.add_edge f t).current_indegree = d.current_indegree ∧
      (d.add_edge f t).remaining = d.remaining) := by
  constructor
  · intro h
    have hor : f ≥ d.nodes.length ∨ t ≥ d.nodes.length := by omega
    simp [DAG.add_edge, hor]
  · intro hf ht
    have hor : ¬(f ≥ d.nodes.length ∨ t ≥ d.nodes.length) := by omega
    simp [DAG.add_edge, hor]

/-- Witness for C5: adding the edge `0 → 1` on a two-node graph bumps the
static in-degree of node `1`. -/
theorem add_edge_spec_witness :
    ((((DAG.empty Int).add_node 5).1.add_node 6).1.add_edge 0 1).base_indegree
      = (List.set [0, 0] 1 (List.getD [0, 0] 1 0 + 1) : List Int) :=
  ((add_edge_spec Int (((DAG.empty Int).add_node 5).1.add_node 6).1 0 1).2
    (by decide) (by decide)).2.2.1

/-- C6: reading a port that was never written, or reading it at a type
other than the stored one, lands in the `bad_any_cast` error branch and
never produces a value of the requested type. -/
theorem get_port_value_mismatch (T : Type) (t : AnyTag) (d : DAG T)
    (id : Nat) (nd : DAGNode T) (hnd : d.nodes.get? id = some nd)
    (hbad : ∀ pr : (u : AnyTag) × u.interp, nd.output = some pr → pr.fst ≠ t) :
    d.get_port_value t id = Except.error PortErr.badAnyCast := by
  unfold DAG.get_port_value
  rw [hnd]
  cases hout : nd.output with
  | none => simp [anyCast, hout]
  | some pr =>
      obtain ⟨u, v⟩ := pr
      have hne : u ≠ t := hbad ⟨u, v⟩ hout
      simp [anyCast, hout, hne]

/-- Witness for C6: reading node `0` of the one-node graph before any
write fails with `bad_any_cast`. -/
theorem get_port_value_mismatch_witness :
    exampleDag.get_port_value AnyTag.tInt 0
      = Except.error PortErr.badAnyCast :=
  get_port_value_mismatch Int AnyTag.tInt exampleDag 0 ⟨5, AnyV.empty⟩ rfl
    (fun _ h => nomatch h)

/-- C7 (the code evaluated at the failing input): `operator[]` returns the
whole internal `Node` record — payload *and* port slot — not the payload
of type `T` that both its own doc comment and its declared return type
`T&` promise; the payload is only the `data` projection of the result. -/
theorem idx_returns_node_record :
    exampleDag.idx 0 = some ⟨5, AnyV.empty⟩ ∧
    (exampleDag.idx 0).map DAGNode.data = some 5 :=
  ⟨rfl, rfl⟩

/-! ## Thread pool theorems -/

/-- C8 counterexample: a pool constructed with `0` does not have at least
one worker — the construction loop spawns exactly as many workers as the
argument says, with no minimum. -/
theorem mkThreadPool_zero_workers :
    ¬(1 ≤ (mkThreadPool 0).workers.length) := by decide

/-- C8 (amended): the worker count always equals the constructor argument
(the host's hardware parallelism when the argument is defaulted); no
minimum of 1 is enforced. -/
theorem mkThreadPool_worker_count (threads : Nat) :
    (mkThreadPool threads).workers.length = threads := by
  simp [mkThreadPool]

/-- C9 counterexample: signal stop on a fresh pool, then enqueue task `7`:
a worker that wakes up runs task `7` — a task enqueued after the stop
signal is executed. -/
theorem enqueue_after_stop_runs :
    workerStep (((mkThreadPool 1).signalStop).enqueue 7)
      = some (WorkerAct.runTask 7, ⟨[0], [], true⟩) := rfl

/-- C9 (amended): a worker leaves its loop exactly when it observes the
stop flag with an empty queue — so it is joined only between tasks, after
its current task completed — and whenever the queue is non-empty (stop
signalled or not) it pops and runs the front task; post-stop tasks are
drained, not dropped. -/
theorem worker_exit_behavior (s : ThreadPoolState) :
    ((∃ s', workerStep s = some (WorkerAct.exitLoop, s')) ↔
      (s.stop = true ∧ s.tasks = [])) ∧
    (∀ t rest, s.tasks = t :: rest →
      workerStep s = some (WorkerAct.runTask t, { s with tasks := rest })) := by
  obtain ⟨w, tk, st⟩ := s
  constructor
  · cases tk with
    | nil => cases st <;> simp [workerStep]
    | cons t rest => simp [workerStep]
  · intro t rest h
    cases h
    simp [workerStep]

/-- Witness for C9's amended theorem on a concrete stopped pool state with
one queued task. -/
theorem worker_exit_behavior_witness :
    workerStep ⟨[0], [7], true⟩
      = some (WorkerAct.runTask 7, ⟨[0], [], true⟩) :=
  (worker_exit_behavior ⟨[0], [7], true⟩).2 7 [] rfl

/-- C10: with a handle at or past the node count, both port operations hit
the unguarded vector index and have no value (the out-of-bounds error of
the embedding), so `id < size()` is a necessary precondition. -/
theorem port_ops_oob (T : Type) (t : AnyTag) (d : DAG T) (id : Nat)
    (h : d.nodes.length ≤ id) (v : AnyV) :
    d.set_port_value id v = Except.error PortErr.oobAccess ∧
    d.get_port_value t id = Except.error PortErr.oobAccess := by
  have hg : d.nodes[id]? = none := List.getElem?_eq_none h
  exact ⟨by simp [DAG.set_port_value, hg], by simp [DAG.get_port_value, hg]⟩

/-- Witness for C10: writing port `3` of the one-node graph has no
value. -/
theorem port_ops_oob_witness :
    exampleDag.set_port_value 3 AnyV.empty
      = Except.error PortErr.oobAccess :=
  (port_ops_oob Int AnyTag.tInt exampleDag 3 (by decide) AnyV.empty).1

/-! ## Helper lemmas on list counters -/

/-- `getD` after `set` at the written (in-range) index. -/
theorem getD_set_self (l : List Int) {i : Nat} (hi : i < l.length) (x : Int) :
    (l.set i x).getD i 0 = x := by
  simp [List.getD, List.getElem?_set_eq_of_lt, hi]

/-- `getD` after `set` at a different index. -/
theorem getD_set_ne (l : List Int) {i j : Nat} (h : i ≠ j) (x : Int) :
    (l.set i x).getD j 0 = l.getD j 0 := by
  simp [List.getD, List.getElem?_set_ne h]

/-! ## Properties of the dependency-resolution loop -/

/-- The counter vector produced by `resolve` does not depend on the enqueue
decisions. -/
theorem resolve_cons_fst (v : Nat) (rest : List Nat) (ci : List Int) :
    (resolve (v :: rest) ci).1
      = (resolve rest (ci.set v (ci.getD v 0 - 1))).1 := by
  simp only [resolve]
  split <;> rfl

/-- Unfolding of the enqueue decisions of `resolve` on a cons. -/
theorem resolve_cons_snd (v : Nat) (rest : List Nat) (ci : List Int) :
    (resolve (v :: rest) ci).2
      = (if ci.getD v 0 = 1
          then v :: (resolve rest (ci.set v (ci.getD v 0 - 1))).2
          else (resolve rest (ci.set v (ci.getD v 0 - 1))).2) := by
  simp only [resolve]
  split <;> simp_all

/-- `resolve` preserves the length of the counter vector. -/
theorem resolve_length (L : List Nat) (ci : List Int) :
    (resolve L ci).1.length = ci.length := by
  induction L generalizing ci with
  | nil => rfl
  | cons v rest ih =>
      rw [resolve_cons_fst, ih, List.length_set]

/-- Each occurrence of `w` in the successor list decrements `w`'s counter
once. -/
theorem resolve_getD (L : List Nat) (ci : List Int)
    (hL : ∀ v ∈ L, v < ci.length) (w : Nat) :
    (resolve L ci).1.getD w 0 = ci.getD w 0 - (L.count w : Int) := by
  induction L generalizing ci with
  | nil => simp [resolve]
  | cons v rest ih =>
      have hv : v < ci.length := hL v (List.mem_cons_self v rest)
      have hrest : ∀ x ∈ rest, x < (ci.set v (ci.getD v 0 - 1)).length := by
        intro x hx
        rw [List.length_set]
        exact hL x (List.mem_cons_of_mem v hx)
      rw [resolve_cons_fst, ih _ hrest]
      by_cases hw : v = w
      · subst hw
        rw [getD_set_self ci hv, List.count_cons_self]
        push_cast
        ring
      · rw [getD_set_ne ci hw]
        have hwv : w ≠ v := fun h => hw h.symm
        have hc : (v :: rest).count w = rest.count w := by
          simp [List.count_cons, hwv]
        rw [hc]

/-- A node is collected for enqueueing by `resolve` exactly when one of the
decrements of its counter starts from the value `1`: the counter was at
least `1` and the occurrence count reaches it. -/
theorem resolve_mem (L : List Nat) (ci : List Int)
    (hL : ∀ v ∈ L, v < ci.length) (w : Nat) :
    w ∈ (resolve L ci).2 ↔
      w ∈ L ∧ 1 ≤ ci.getD w 0 ∧ ci.getD w 0 ≤ (L.count w : Int) := by
  induction L generalizing ci with
  | nil => simp [resolve]
  | cons v rest ih =>
      have hv : v < ci.length := hL v (List.mem_cons_self v rest)
      have hrest : ∀ x ∈ rest, x < (ci.set v (ci.getD v 0 - 1)).length := by
        intro x hx
        rw [List.length_set]
        exact hL x (List.mem_cons_of_mem v hx)
      rw [resolve_cons_snd]
      by_cases hw : v = w
      · subst hw
        have hget : (ci.set v (ci.getD v 0 - 1)).getD v 0 = ci.getD v 0 - 1 :=
          getD_set_self ci hv _
        have hcnt : ((v :: rest).count v : Int) = (rest.count v : Int) + 1 := by
          rw [List.count_cons_self]
          push_cast
          ring
        have hmemc : v ∈ rest ↔ 1 ≤ rest.count v := by
          rw [← List.count_pos_iff]
          omega
        by_cases hone : ci.getD v 0 = 1
        · rw [if_pos hone]
          constructor
          · intro _
            exact ⟨List.mem_cons_self v rest, by omega, by omega⟩
          · intro _
            exact List.mem_cons_self v _
        · rw [if_neg hone, ih _ hrest, hget, hcnt]
          constructor
          · rintro ⟨_, h1, h2⟩
            exact ⟨List.mem_cons_self v rest, by omega, by omega⟩
          · rintro ⟨_, h1, h2⟩
            have hrc : 1 ≤ rest.count v := by omega
            exact ⟨hmemc.mpr hrc, by omega, by omega⟩
      · have hwv : w ≠ v := fun h => hw h.symm
        have hget : (ci.set v (ci.getD v 0 - 1)).getD w 0 = ci.getD w 0 :=
          getD_set_ne ci hw _
        have hcnt : (v :: rest).count w = rest.count w := by
          simp [List.count_cons, hwv]
        have hstep : w ∈ (if ci.getD v 0 = 1
            then v :: (resolve rest (ci.set v (ci.getD v 0 - 1))).2
            else (resolve rest (ci.set v (ci.getD v 0 - 1))).2) ↔
            w ∈ (resolve rest (ci.set v (ci.getD v 0 - 1))).2 := by
          split <;> simp [List.mem_cons, hwv]
        rw [hstep, ih _ hrest, hget, hcnt]
        simp [List.mem_cons, hwv]

/-- `resolve` never collects the same node twice: the counter decreases
strictly, so only one decrement can start from `1`. -/
theorem resolve_nodup (L : List Nat) (ci : List Int)
    (hL : ∀ v ∈ L, v < ci.length) : (resolve L ci).2.Nodup := by
  induction L generalizing ci with
  | nil => simp [resolve]
  | cons v rest ih =>
      have hv : v < ci.length := hL v (List.mem_cons_self v rest)
      have hrest : ∀ x ∈ rest, x < (ci.set v (ci.getD v 0 - 1)).length := by
        intro x hx
        rw [List.length_set]
        exact hL x (List.mem_cons_of_mem v hx)
      rw [resolve_cons_snd]
      by_cases hone : ci.getD v 0 = 1
      · rw [if_pos hone]
        refine List.nodup_cons.mpr ⟨?_, ih _ hrest⟩
        intro hvmem
        have h := (resolve_mem rest _ hrest v).mp hvmem
        rw [getD_set_self ci hv] at h
        omega
      · rw [if_neg hone]
        exact ih _ hrest

/-! ## Counting edge occurrences -/

theorem execCount_nil (G : SGraph) (v : Nat) : execCount G [] v = 0 := rfl

theorem execCount_append_one (G : SGraph) (E : List Nat) (u v : Nat) :
    execCount G (E ++ [u]) v
      = execCount G E v + (G.adj.getD u []).count v := by
  simp [execCount]

/-- `execCount` over a duplicate-free list as a `Finset` sum. -/
theorem execCount_toFinset (G : SGraph) (E : List Nat) (hnd : E.Nodup)
    (v : Nat) :
    execCount G E v
      = E.toFinset.sum (fun u => (G.adj.getD u []).count v) := by
  rw [execCount, ← List.sum_toFinset _ hnd]

/-- `totalInto` as a `Finset` sum over all node ids. -/
theorem totalInto_eq_range_sum (G : SGraph) (v : Nat) :
    totalInto G v
      = (Finset.range G.n).sum (fun u => (G.adj.getD u []).count v) := by
  rw [totalInto, ← List.sum_toFinset _ (List.nodup_range G.n)]
  congr 1
  ext x
  simp

theorem toFinset_subset_range (E : List Nat) (n : Nat)
    (hlt : ∀ x ∈ E, x < n) : E.toFinset ⊆ Finset.range n := by
  intro x hx
  rw [Finset.mem_range]
  exact hlt x (List.mem_toFinset.mp hx)

/-- A duplicate-free list of executed nodes never over-counts the edges
into a node. -/
theorem execCount_le_totalInto (G : SGraph) (E : List Nat) (hnd : E.Nodup)
    (hlt : ∀ x ∈ E, x < G.n) (v : Nat) :
    execCount G E v ≤ totalInto G v := by
  rw [execCount_toFinset G E hnd v, totalInto_eq_range_sum]
  exact Finset.sum_le_sum_of_subset (toFinset_subset_range E G.n hlt)

theorem length_le_of_nodup_lt (E : List Nat) (n : Nat) (hnd : E.Nodup)
    (hlt : ∀ x ∈ E, x < n) : E.length ≤ n := by
  have h1 := List.toFinset_card_of_nodup hnd
  have h2 := Finset.card_le_card (toFinset_subset_range E n hlt)
  rw [Finset.card_range] at h2
  omega

/-- When the executed nodes account for every edge occurrence into `v`,
every node with an edge into `v` has executed. -/
theorem full_exec_mem (G : SGraph) (hlenAdj : G.adj.length = G.n)
    (E : List Nat) (hnd : E.Nodup) (hlt : ∀ x ∈ E, x < G.n) (v : Nat)
    (hfull : execCount G E v = totalInto G v)
    (w : Nat) (hw : v ∈ G.adj.getD w []) : w ∈ E := by
  by_cases hwn : w < G.n
  · by_contra hwE
    have hsub := toFinset_subset_range E G.n hlt
    have hsd : (Finset.range G.n \ E.toFinset).sum
          (fun u => (G.adj.getD u []).count v)
        + E.toFinset.sum (fun u => (G.adj.getD u []).count v)
        = (Finset.range G.n).sum (fun u => (G.adj.getD u []).count v) :=
      Finset.sum_sdiff hsub
    rw [execCount_toFinset G E hnd v, totalInto_eq_range_sum] at hfull
    have hzero : (Finset.range G.n \ E.toFinset).sum
        (fun u => (G.adj.getD u []).count v) = 0 := by omega
    have hwmem : w ∈ Finset.range G.n \ E.toFinset := by
      rw [Finset.mem_sdiff, Finset.mem_range]
      exact ⟨hwn, fun hc => hwE (List.mem_toFinset.mp hc)⟩
    have hcw := (Finset.sum_eq_zero_iff.mp hzero) w hwmem
    rw [List.count_eq_zero] at hcw
    exact hcw hw
  · exfalso
    have hnil : G.adj.getD w [] = [] := by
      apply List.getD_eq_default
      omega
    rw [hnil] at hw
    exact absurd hw (List.not_mem_nil v)

/-! ## The scheduling invariant -/

/-- Invariant of every run-state reachable during a pass: the executed log
and the queue never repeat or overlap, the counters record exactly the
edges resolved by executed nodes, the global counter counts the nodes
still to run, a node has been seen (executed or queued) exactly when its
counter has hit zero, and the executed log is a topological prefix. -/
structure ExInv (G : SGraph) (s : ExecState) : Prop where
  ndE : s.executed.Nodup
  ndP : s.pending.Nodup
  disj : ∀ x ∈ s.executed, x ∉ s.pending
  ltE : ∀ x ∈ s.executed, x < G.n
  ltP : ∀ x ∈ s.pending, x < G.n
  lenCi : s.ci.length = G.n
  ciVal : ∀ v, v < G.n →
    s.ci.getD v 0
      = (totalInto G v : Int) - (execCount G s.executed v : Int)
  remVal : s.remaining = G.n - s.executed.length
  zero_iff : ∀ v, v < G.n →
    ((v ∈ s.executed ∨ v ∈ s.pending) ↔
      execCount G s.executed v = totalInto G v)
  topoE : ∀ (j : Nat) (hj : j < s.executed.length) (u : Nat),
    s.executed.get ⟨j, hj⟩ ∈ G.adj.getD u [] → u ∈ s.executed.take j
  topoP : ∀ v ∈ s.pending, ∀ u : Nat, v ∈ G.adj.getD u [] → u ∈ s.executed

/-- The invariant holds right after `reset()` and the seed phase. -/
theorem exInv_init (G : SGraph) (hwf : WfG G) : ExInv G (initState G) := by
  refine ⟨?_, ?_, ?_, ?_, ?_, ?_, ?_, ?_, ?_, ?_, ?_⟩
  · exact List.nodup_nil
  · exact (List.nodup_range G.n).filter _
  · intro x hx
    exact absurd hx (List.not_mem_nil x)
  · intro x hx
    exact absurd hx (List.not_mem_nil x)
  · intro x hx
    exact List.mem_range.mp (List.mem_of_mem_filter hx)
  · exact hwf.lenBase
  · intro v hv
    show G.base.getD v 0
      = (totalInto G v : Int) - (execCount G [] v : Int)
    rw [hwf.baseVal v hv, execCount_nil]
    push_cast
    ring
  · show G.n = G.n - ([] : List Nat).length
    simp
  · intro v hv
    show (v ∈ ([] : List Nat)
        ∨ v ∈ (List.range G.n).filter (fun i => G.base.getD i 0 = 0)) ↔
      execCount G [] v = totalInto G v
    rw [execCount_nil]
    have hbv := hwf.baseVal v hv
    simp only [List.not_mem_nil, false_or, List.mem_filter, List.mem_range,
      decide_eq_true_eq]
    constructor
    · rintro ⟨_, hz⟩
      rw [hbv] at hz
      exact_mod_cast hz.symm
    · intro hz
      refine ⟨hv, ?_⟩
      rw [hbv, ← hz]
      simp
  · intro j hj u hget
    exact absurd hj (by simp [initState])
  · intro v hvp u hu
    exfalso
    simp only [initState] at hvp
    have hvlt : v < G.n := List.mem_range.mp (List.mem_filter.mp hvp).1
    have hz : G.base.getD v 0 = 0 :=
      of_decide_eq_true (List.mem_filter.mp hvp).2
    have htot : totalInto G v = 0 := by
      have hbv := hwf.baseVal v hvlt
      rw [hbv] at hz
      exact_mod_cast hz
    by_cases hun : u < G.n
    · rw [totalInto_eq_range_sum] at htot
      have hcw := (Finset.sum_eq_zero_iff.mp htot) u (Finset.mem_range.mpr hun)
      rw [List.count_eq_zero] at hcw
      exact hcw hu
    · have hnil : G.adj.getD u [] = [] := by
        apply List.getD_eq_default
        rw [hwf.lenAdj]
        omega
      rw [hnil] at hu
      exact absurd hu (List.not_mem_nil v)

/-- The invariant is preserved by every scheduling step. -/
theorem exInv_step (G : SGraph) (hwf : WfG G) {s s' : ExecState}
    (hinv : ExInv G s) (hstep : EStep G s s') : ExInv G s' := by
  cases hstep
  rename_i u p q hp
  have hupend : u ∈ s.pending := by
    rw [hp]
    simp
  have hult : u < G.n := hinv.ltP u hupend
  have hunotE : u ∉ s.executed := fun h => hinv.disj u h hupend
  have hLlt : ∀ v ∈ G.adj.getD u [], v < G.n := fun v hv => hwf.succLt u v hv
  have hLltci : ∀ v ∈ G.adj.getD u [], v < s.ci.length := by
    intro v hv
    rw [hinv.lenCi]
    exact hLlt v hv
  have hndE' : (s.executed ++ [u]).Nodup := by
    rw [List.nodup_append]
    refine ⟨hinv.ndE, List.nodup_singleton u, ?_⟩
    intro x hx hxu
    rw [List.mem_singleton] at hxu
    subst hxu
    exact hunotE hx
  have hltE' : ∀ x ∈ s.executed ++ [u], x < G.n := by
    intro x hx
    rcases List.mem_append.mp hx with h | h
    · exact hinv.ltE x h
    · rw [List.mem_singleton] at h
      subst h
      exact hult
  have hcnt' : ∀ v : Nat, execCount G (s.executed ++ [u]) v
      = execCount G s.executed v + (G.adj.getD u []).count v :=
    fun v => execCount_append_one G s.executed u v
  have hEle : (s.executed ++ [u]).length ≤ G.n :=
    length_le_of_nodup_lt _ _ hndE' hltE'
  have hle : ∀ v, execCount G s.executed v ≤ totalInto G v :=
    fun v => execCount_le_totalInto G _ hinv.ndE hinv.ltE v
  have hle' : ∀ v, execCount G (s.executed ++ [u]) v ≤ totalInto G v :=
    fun v => execCount_le_totalInto G _ hndE' hltE' v
  have hndP := hinv.ndP
  rw [hp] at hndP
  have hndpq : (p ++ q).Nodup :=
    List.Nodup.sublist ((List.sublist_cons_self u q).append_left p) hndP
  have hunotpq : u ∉ p ++ q := by
    intro hu
    rcases List.mem_append.mp hu with h | h
    · exact (List.nodup_append.mp hndP).2.2 h (List.mem_cons_self u q)
    · exact (List.nodup_cons.mp (List.nodup_append.mp hndP).2.1).1 h
  have hpqsubP : ∀ x ∈ p ++ q, x ∈ s.pending := by
    intro x hx
    rw [hp]
    rcases List.mem_append.mp hx with h | h
    · exact List.mem_append_left _ h
    · exact List.mem_append_right _ (List.mem_cons_of_mem u h)
  have hzeroE : ∀ v ∈ s.executed,
      execCount G s.executed v = totalInto G v :=
    fun v hv => (hinv.zero_iff v (hinv.ltE v hv)).mp (Or.inl hv)
  have hzeroP : ∀ v ∈ s.pending,
      execCount G s.executed v = totalInto G v :=
    fun v hv => (hinv.zero_iff v (hinv.ltP v hv)).mp (Or.inr hv)
  have hcu : execCount G s.executed u = totalInto G u := hzeroP u hupend
  have hnew_iff : ∀ v, v ∈ (resolve (G.adj.getD u []) s.ci).2 ↔
      (v ∈ G.adj.getD u []
        ∧ execCount G s.executed v < totalInto G v
        ∧ totalInto G v
            ≤ execCount G s.executed v + (G.adj.getD u []).count v) := by
    intro v
    rw [resolve_mem (G.adj.getD u []) s.ci hLltci v]
    constructor
    · rintro ⟨hvL, h1, h2⟩
      have hvlt := hLlt v hvL
      rw [hinv.ciVal v hvlt] at h1 h2
      exact ⟨hvL, by omega, by omega⟩
    · rintro ⟨hvL, h1, h2⟩
      have hvlt := hLlt v hvL
      rw [hinv.ciVal v hvlt]
      exact ⟨hvL, by omega, by omega⟩
  have hnew_fresh : ∀ v ∈ (resolve (G.adj.getD u []) s.ci).2,
      v ∉ s.executed ∧ v ∉ s.pending := by
    intro v hv
    have h := (hnew_iff v).mp hv
    constructor
    · intro hvE
      have := hzeroE v hvE
      omega
    · intro hvP
      have := hzeroP v hvP
      omega
  have hnew_lt : ∀ v ∈ (resolve (G.adj.getD u []) s.ci).2, v < G.n :=
    fun v hv => hLlt v ((hnew_iff v).mp hv).1
  have hkuzero : (G.adj.getD u []).count u = 0 := by
    rw [List.count_eq_zero]
    intro hu
    exact hunotE (hinv.topoP u hupend u hu)
  have hkEzero : ∀ v ∈ s.executed, (G.adj.getD u []).count v = 0 := by
    intro v hv
    rw [List.count_eq_zero]
    intro hvL
    obtain ⟨⟨j, hj⟩, hget⟩ := List.mem_iff_get.mp hv
    have hmem := hinv.topoE j hj u (by rw [hget]; exact hvL)
    exact hunotE (List.take_subset j s.executed hmem)
  have hkPzero : ∀ v ∈ s.pending, (G.adj.getD u []).count v = 0 := by
    intro v hv
    rw [List.count_eq_zero]
    intro hvL
    exact hunotE (hinv.topoP v hv u hvL)
  refine ⟨?_, ?_, ?_, ?_, ?_, ?_, ?_, ?_, ?_, ?_, ?_⟩
  · exact hndE'
  · show ((p ++ q) ++ (resolve (G.adj.getD u []) s.ci).2).Nodup
    rw [List.nodup_append]
    refine ⟨hndpq, resolve_nodup _ _ hLltci, ?_⟩
    intro x hx hxr
    exact (hnew_fresh x hxr).2 (hpqsubP x hx)
  · show ∀ x ∈ s.executed ++ [u],
      x ∉ (p ++ q) ++ (resolve (G.adj.getD u []) s.ci).2
    intro x hx hxP
    rcases List.mem_append.mp hx with hxE | hxu
    · rcases List.mem_append.mp hxP with h1 | h2
      · exact hinv.disj x hxE (hpqsubP x h1)
      · exact (hnew_fresh x h2).1 hxE
    · rw [List.mem_singleton] at hxu
      subst hxu
      rcases List.mem_append.mp hxP with h1 | h2
      · exact hunotpq h1
      · exact (hnew_fresh x h2).2 hupend
  · exact hltE'
  · show ∀ x ∈ (p ++ q) ++ (resolve (G.adj.getD u []) s.ci).2, x < G.n
    intro x hx
    rcases List.mem_append.mp hx with h1 | h2
    · exact hinv.ltP x (hpqsubP x h1)
    · exact hnew_lt x h2
  · show (resolve (G.adj.getD u []) s.ci).1.length = G.n
    rw [resolve_length]
    exact hinv.lenCi
  · show ∀ v, v < G.n → (resolve (G.adj.getD u []) s.ci).1.getD v 0
      = (totalInto G v : Int) - (execCount G (s.executed ++ [u]) v : Int)
    intro v hv
    rw [resolve_getD _ _ hLltci v, hinv.ciVal v hv, hcnt' v]
    push_cast
    ring
  · show s.remaining - 1 = G.n - (s.executed ++ [u]).length
    rw [hinv.remVal]
    rw [List.length_append] at hEle ⊢
    simp only [List.length_singleton] at hEle ⊢
    omega
  · show ∀ v, v < G.n →
      ((v ∈ s.executed ++ [u]
          ∨ v ∈ (p ++ q) ++ (resolve (G.adj.getD u []) s.ci).2) ↔
        execCount G (s.executed ++ [u]) v = totalInto G v)
    intro v hv
    rw [hcnt' v]
    constructor
    · rintro (hvE' | hvP')
      · rcases List.mem_append.mp hvE' with hvE | hvu
        · have hz := hzeroE v hvE
          have hk := hkEzero v hvE
          omega
        · rw [List.mem_singleton] at hvu
          subst hvu
          omega
      · rcases List.mem_append.mp hvP' with h1 | h2
        · have hz := hzeroP v (hpqsubP v h1)
          have hk := hkPzero v (hpqsubP v h1)
          omega
        · have h := (hnew_iff v).mp h2
          have h3 := hle' v
          rw [hcnt' v] at h3
          omega
    · intro heq
      by_cases hz : execCount G s.executed v = totalInto G v
      · rcases (hinv.zero_iff v hv).mpr hz with hvE | hvP
        · exact Or.inl (List.mem_append_left _ hvE)
        · rw [hp] at hvP
          rcases List.mem_append.mp hvP with h1 | h2
          · exact Or.inr (List.mem_append_left _ (List.mem_append_left _ h1))
          · rcases List.mem_cons.mp h2 with hvu | hq
            · subst hvu
              exact Or.inl (List.mem_append_right _ (List.mem_singleton_self v))
            · exact Or.inr
                (List.mem_append_left _ (List.mem_append_right _ hq))
      · have hlev := hle v
        refine Or.inr (List.mem_append_right _ ?_)
        have hkpos : 0 < (G.adj.getD u []).count v := by omega
        exact (hnew_iff v).mpr
          ⟨List.count_pos_iff.mp hkpos, by omega, by omega⟩
  · show ∀ (j : Nat) (hj : j < (s.executed ++ [u]).length) (w : Nat),
      (s.executed ++ [u]).get ⟨j, hj⟩ ∈ G.adj.getD w [] →
        w ∈ (s.executed ++ [u]).take j
    intro j hj w hget
    by_cases hjE : j < s.executed.length
    · have hgeteq : (s.executed ++ [u]).get ⟨j, hj⟩
          = s.executed.get ⟨j, hjE⟩ := by
        simp [List.getElem_append_left hjE]
      rw [hgeteq] at hget
      rw [List.take_append_of_le_length (le_of_lt hjE)]
      exact hinv.topoE j hjE w hget
    · have hju : j = s.executed.length := by
        rw [List.length_append, List.length_singleton] at hj
        omega
      subst hju
      have hgeteq : (s.executed ++ [u]).get ⟨s.executed.length, hj⟩ = u := by
        rw [List.get_eq_getElem]
        exact List.getElem_concat_length s.executed u s.executed.length rfl hj
      rw [hgeteq] at hget
      rw [List.take_left]
      exact hinv.topoP u hupend w hget
  · show ∀ v ∈ (p ++ q) ++ (resolve (G.adj.getD u []) s.ci).2,
      ∀ w : Nat, v ∈ G.adj.getD w [] → w ∈ s.executed ++ [u]
    intro v hv w hvw
    rcases List.mem_append.mp hv with h1 | h2
    · exact List.mem_append_left _ (hinv.topoP v (hpqsubP v h1) w hvw)
    · have h := (hnew_iff v).mp h2
      have hfull2 : execCount G (s.executed ++ [u]) v = totalInto G v := by
        have h3 := hle' v
        rw [hcnt' v] at h3 ⊢
        omega
      exact full_exec_mem G hwf.lenAdj _ hndE' hltE' v hfull2 w hvw

/-- Every run-state reachable during a pass satisfies the invariant. -/
theorem reach_inv (G : SGraph) (hwf : WfG G) {s : ExecState}
    (hreach : Reach G s) : ExInv G s := by
  induction hreach with
  | refl => exact exInv_init G hwf
  | tail _ hstep ih => exact exInv_step G hwf ih hstep

/-- When the global counter has reached zero, the executed log covers
exactly the node ids. -/
theorem executed_full (G : SGraph) {s : ExecState} (hinv : ExInv G s)
    (hrem : s.remaining = 0) :
    s.executed.toFinset = Finset.range G.n := by
  have hlen := length_le_of_nodup_lt _ _ hinv.ndE hinv.ltE
  have hlen2 : G.n ≤ s.executed.length := by
    have := hinv.remVal
    omega
  apply Finset.eq_of_subset_of_card_le (toFinset_subset_range _ _ hinv.ltE)
  rw [Finset.card_range, List.toFinset_card_of_nodup hinv.ndE]
  exact hlen2

/-- When the global counter has reached zero, every node appears exactly
once in the executed log. -/
theorem executed_count_one (G : SGraph) {s : ExecState} (hinv : ExInv G s)
    (hrem : s.remaining = 0) :
    ∀ v, v < G.n → s.executed.count v = 1 := by
  intro v hv
  have hfin := executed_full G hinv hrem
  have hmem : v ∈ s.executed := by
    rw [← List.mem_toFinset, hfin]
    exact Finset.mem_range.mpr hv
  exact List.count_eq_one_of_mem hinv.ndE hmem

/-- Progress: on an acyclic graph, an empty queue means every node has
executed — a rank-minimal unexecuted node would already have all its
predecessors executed, hence a zero counter, hence be queued or
executed. -/
theorem pending_empty_done (G : SGraph) (_hwf : WfG G) (hac : AcyclicG G)
    {s : ExecState} (hinv : ExInv G s) (hpe : s.pending = []) :
    G.n ≤ s.executed.length := by
  obtain ⟨rank, hrank⟩ := hac
  by_contra hlt
  push_neg at hlt
  have hUne : ((Finset.range G.n).filter
      (fun v => v ∉ s.executed)).Nonempty := by
    by_contra hne
    rw [Finset.not_nonempty_iff_eq_empty] at hne
    have hsub : Finset.range G.n ⊆ s.executed.toFinset := by
      intro x hx
      by_contra hxE
      have hxU : x ∈ (Finset.range G.n).filter
          (fun v => v ∉ s.executed) := by
        rw [Finset.mem_filter]
        exact ⟨hx, fun hmem => hxE (List.mem_toFinset.mpr hmem)⟩
      rw [hne] at hxU
      exact absurd hxU (Finset.not_mem_empty x)
    have hcard := Finset.card_le_card hsub
    rw [Finset.card_range, List.toFinset_card_of_nodup hinv.ndE] at hcard
    omega
  obtain ⟨v, hvU, hmin⟩ := Finset.exists_min_image _ rank hUne
  rw [Finset.mem_filter, Finset.mem_range] at hvU
  obtain ⟨hvn, hvE⟩ := hvU
  have hfull : execCount G s.executed v = totalInto G v := by
    rw [execCount_toFinset G _ hinv.ndE, totalInto_eq_range_sum]
    apply Finset.sum_subset (toFinset_subset_range _ _ hinv.ltE)
    intro w hw hwE
    rw [List.count_eq_zero]
    intro hvw
    have hrw := hrank w v hvw
    have hwU : w ∈ (Finset.range G.n).filter
        (fun x => x ∉ s.executed) := by
      rw [Finset.mem_filter]
      exact ⟨hw, fun hmem => hwE (List.mem_toFinset.mpr hmem)⟩
    have := hmin w hwU
    omega
  rcases (hinv.zero_iff v hvn).mpr hfull with h | h
  · exact hvE h
  · rw [hpe] at h
    exact absurd h (List.not_mem_nil v)

/-! ## Runs under a deterministic schedule -/

theorem stepPick_nil (G : SGraph) {s : ExecState} (h : s.pending = [])
    (k : Nat) : stepPick G s k = s := by
  simp [stepPick, h]

theorem stepPick_cons (G : SGraph) {s : ExecState} {t : Nat}
    {rest : List Nat} (h : s.pending = t :: rest) (k : Nat) :
    stepPick G s k
      = dispatchStep G s ((t :: rest).getD (k % (t :: rest).length) 0)
          ((t :: rest).take (k % (t :: rest).length))
          ((t :: rest).drop ((k % (t :: rest).length) + 1)) := by
  simp [stepPick, h]

/-- With a non-empty queue, the deterministic scheduler performs a step of
the scheduling relation. -/
theorem stepPick_estep (G : SGraph) {s : ExecState} (h : s.pending ≠ [])
    (k : Nat) : EStep G s (stepPick G s k) := by
  obtain ⟨t, rest, hp⟩ : ∃ t rest, s.pending = t :: rest := by
    cases hpp : s.pending with
    | nil => exact absurd hpp h
    | cons a l => exact ⟨a, l, rfl⟩
  rw [stepPick_cons G hp k]
  have hilt : k % (t :: rest).length < (t :: rest).length :=
    Nat.mod_lt _ (by simp)
  have hdecomp : s.pending
      = (t :: rest).take (k % (t :: rest).length)
        ++ (t :: rest).getD (k % (t :: rest).length) 0
          :: (t :: rest).drop (k % (t :: rest).length + 1) := by
    rw [hp]
    conv_lhs => rw [← List.take_append_drop (k % (t :: rest).length)
      (t :: rest)]
    congr 1
    rw [List.getD_eq_getElem _ _ hilt]
    exact List.drop_eq_getElem_cons hilt
  exact EStep.dispatch s _ _ _ hdecomp

theorem stepPick_reach (G : SGraph) {s : ExecState} (hreach : Reach G s)
    (k : Nat) : Reach G (stepPick G s k) := by
  by_cases h : s.pending = []
  · rw [stepPick_nil G h k]
    exact hreach
  · exact Relation.ReflTransGen.tail hreach (stepPick_estep G h k)

theorem runSched_reach (G : SGraph) (sched : List Nat) {s : ExecState}
    (hreach : Reach G s) : Reach G (runSched G sched s) := by
  induction sched generalizing s with
  | nil => exact hreach
  | cons k rest ih => exact ih (stepPick_reach G hreach k)

theorem stepPick_exec_len (G : SGraph) {s : ExecState}
    (h : s.pending ≠ []) (k : Nat) :
    (stepPick G s k).executed.length = s.executed.length + 1 := by
  obtain ⟨t, rest, hp⟩ : ∃ t rest, s.pending = t :: rest := by
    cases hpp : s.pending with
    | nil => exact absurd hpp h
    | cons a l => exact ⟨a, l, rfl⟩
  rw [stepPick_cons G hp k]
  simp [dispatchStep]

/-- Liveness: on an acyclic graph, a schedule long enough to dispatch every
node leaves every node executed. -/
theorem runSched_done (G : SGraph) (hwf : WfG G) (hac : AcyclicG G)
    (sched : List Nat) : ∀ s : ExecState, Reach G s →
    G.n ≤ s.executed.length + sched.length →
    G.n ≤ (runSched G sched s).executed.length := by
  induction sched with
  | nil =>
      intro s _ hbound
      simpa using hbound
  | cons k rest ih =>
      intro s hreach hbound
      by_cases hpe : s.pending = []
      · have hdone := pending_empty_done G hwf hac (reach_inv G hwf hreach) hpe
        have hrw : runSched G (k :: rest) s = runSched G rest s := by
          show runSched G rest (stepPick G s k) = runSched G rest s
          rw [stepPick_nil G hpe k]
        rw [hrw]
        exact ih s hreach (by omega)
      · have hreach' : Reach G (stepPick G s k) :=
          Relation.ReflTransGen.tail hreach (stepPick_estep G hpe k)
        have hlen := stepPick_exec_len G hpe k
        show G.n ≤ (runSched G rest (stepPick G s k)).executed.length
        apply ih _ hreach'
        rw [hlen]
        rw [List.length_cons] at hbound
        omega

/-- Core completion property: a full-length run of the engine on an acyclic
graph ends with the global counter at zero and with every node having been
dispatched exactly once. -/
theorem runSched_terminal (G : SGraph) (hwf : WfG G) (hac : AcyclicG G)
    (sched : List Nat) (hlen : G.n ≤ sched.length) :
    (runSched G sched (initState G)).remaining = 0 ∧
    ∀ v, v < G.n →
      (runSched G sched (initState G)).executed.count v = 1 := by
  have hreach : Reach G (runSched G sched (initState G)) :=
    runSched_reach G sched Relation.ReflTransGen.refl
  have hinv := reach_inv G hwf hreach
  have hlenE : G.n ≤ (runSched G sched (initState G)).executed.length := by
    apply runSched_done G hwf hac sched (initState G)
      Relation.ReflTransGen.refl
    simpa [initState] using hlen
  have hrem : (runSched G sched (initState G)).remaining = 0 := by
    have := hinv.remVal
    omega
  exact ⟨hrem, executed_count_one G hinv hrem⟩

/-! ## Claim theorems for the execution engine -/

/-- C1: on every well-formed acyclic graph and under every interleaving of
the pool's workers (every schedule at least as long as the node count — one
entry per dispatch task), a single pass runs to completion (`remaining`
reaches `0`, so the blocking wait returns) with the work function invoked
exactly once per node: no node dropped, none dispatched twice, however the
concurrent completions interleave. -/
theorem execute_parallel_exactly_once (G : SGraph) (hwf : WfG G)
    (hac : AcyclicG G) (sched : List Nat) (hlen : G.n ≤ sched.length) :
    (runSched G sched (initState G)).remaining = 0 ∧
    ∀ v, v < G.n →
      (runSched G sched (initState G)).executed.count v = 1 :=
  runSched_terminal G hwf hac sched hlen

/-- C2: in every reachable run-state of a pass, (a) whenever the node at
position `j` of the invocation log has an edge from `u`, then `u` was
invoked (and completed — a dispatch task finishes its executor before
touching any counter) strictly earlier in the log, and (b) a node's live
in-degree counter is zero only when every one of its edge-predecessors has
already executed. -/
theorem edge_ordering (G : SGraph) (hwf : WfG G) {s : ExecState}
    (hreach : Reach G s) :
    (∀ (j : Nat) (hj : j < s.executed.length) (u : Nat),
      s.executed.get ⟨j, hj⟩ ∈ G.adj.getD u [] →
        u ∈ s.executed.take j) ∧
    (∀ v, v < G.n → s.ci.getD v 0 = 0 →
      ∀ u : Nat, v ∈ G.adj.getD u [] → u ∈ s.executed) := by
  have hinv := reach_inv G hwf hreach
  refine ⟨hinv.topoE, ?_⟩
  intro v hv hz u hu
  have hci := hinv.ciVal v hv
  rw [hz] at hci
  have hle := execCount_le_totalInto G _ hinv.ndE hinv.ltE v
  have hfull : execCount G s.executed v = totalInto G v := by omega
  exact full_exec_mem G hwf.lenAdj _ hinv.ndE hinv.ltE v hfull u hu

/-- Helper for C3: at any reachable state with the global counter at zero
(the condition under which the blocking wait — and hence the pass —
returns), every live in-degree counter is zero. -/
theorem counters_zero_at_return (G : SGraph) (hwf : WfG G) {s : ExecState}
    (hreach : Reach G s) (hrem : s.remaining = 0) :
    ∀ v, v < G.n → s.ci.getD v 0 = 0 := by
  have hinv := reach_inv G hwf hreach
  intro v hv
  have hfin := executed_full G hinv hrem
  have hfull : execCount G s.executed v = totalInto G v := by
    rw [execCount_toFinset G _ hinv.ndE, hfin, totalInto_eq_range_sum]
  rw [hinv.ciVal v hv, hfull]
  ring

/-- C3 (amended): for every *non-empty* well-formed acyclic graph, after
`execute_parallel` returns, every live in-degree counter is zero and the
global remaining counter is zero.  (The empty graph returns before
`reset()` and leaves the run-state untouched — see the counterexample.) -/
theorem execute_parallel_postcondition (T : Type) (d : DAG T)
    (hwf : WfG d.toGraph) (hac : AcyclicG d.toGraph) (sched : List Nat)
    (hlen : d.nodes.length ≤ sched.length) (hne : d.nodes ≠ []) :
    (d.execute_parallel sched).remaining = some 0 ∧
    ∀ v, v < d.nodes.length →
      (d.execute_parallel sched).current_indegree.getD v 0 = 0 := by
  have hG : d.toGraph.n = d.nodes.length := rfl
  have hdone := runSched_terminal d.toGraph hwf hac sched
    (by rw [hG]; exact hlen)
  have hreach : Reach d.toGraph
      (runSched d.toGraph sched (initState d.toGraph)) :=
    runSched_reach d.toGraph sched Relation.ReflTransGen.refl
  have hzero := counters_zero_at_return d.toGraph hwf hreach hdone.1
  have hempty : d.nodes.isEmpty = false := by
    cases hn : d.nodes with
    | nil => exact absurd hn hne
    | cons a l => rfl
  have hee : d.execute_parallel sched
      = { d with
          current_indegree :=
            (runSched d.toGraph sched (initState d.toGraph)).ci
          remaining :=
            some (runSched d.toGraph sched (initState d.toGraph)).remaining
        } := by
    simp [DAG.execute_parallel, hempty]
  rw [hee]
  refine ⟨?_, ?_⟩
  · show some (runSched d.toGraph sched (initState d.toGraph)).remaining
      = some 0
    rw [hdone.1]
  · intro v hv
    show (runSched d.toGraph sched (initState d.toGraph)).ci.getD v 0 = 0
    exact hzero v (by rw [hG]; exact hv)

/-- C3 counterexample: on the empty graph `execute_parallel` returns
immediately without running `reset()`, so the whole object — including the
never-initialized global remaining counter — is exactly as before the
call; the remaining counter is not the value zero. -/
theorem execute_parallel_empty_untouched :
    ((DAG.empty Int).execute_parallel []).remaining ≠ some 0 ∧
    (DAG.empty Int).execute_parallel [] = DAG.empty Int := by
  refine ⟨?_, rfl⟩
  intro h
  rw [show ((DAG.empty Int).execute_parallel []).remaining = none from rfl]
    at h
  exact Option.noConfusion h

/-! ## The diamond graph as a concrete instance -/

/-- The static part of the diamond. -/
def diamondG : SGraph := diamondDag.toGraph

theorem diamondG_adj : diamondG.adj = [[1, 2], [3], [3], []] := by decide

theorem diamondG_n : diamondG.n = 4 := rfl

/-- The diamond is well-formed. -/
theorem diamondG_wf : WfG diamondG := by
  refine ⟨rfl, rfl, ?_, ?_⟩
  · intro u v hv
    rw [diamondG_adj] at hv
    rw [diamondG_n]
    obtain _ | _ | _ | _ | m := u
    · simp [List.getD] at hv
      rcases hv with h | h <;> omega
    · simp [List.getD] at hv
      omega
    · simp [List.getD] at hv
      omega
    · simp [List.getD] at hv
    · simp [List.getD] at hv
  · intro v hv
    rw [diamondG_n] at hv
    interval_cases v <;> decide

/-- The diamond is acyclic: the identity is a topological numbering. -/
theorem diamondG_acyclic : AcyclicG diamondG := by
  refine ⟨fun u => u, ?_⟩
  intro u v hv
  show u < v
  rw [diamondG_adj] at hv
  obtain _ | _ | _ | _ | m := u
  · simp [List.getD] at hv
    rcases hv with h | h <;> omega
  · simp [List.getD] at hv
    omega
  · simp [List.getD] at hv
    omega
  · simp [List.getD] at hv
  · simp [List.getD] at hv

/-- Witness for C1 on the diamond with a concrete schedule. -/
theorem execute_parallel_exactly_once_witness :
    (runSched diamondG [0, 0, 0, 0] (initState diamondG)).executed.count 0
      = 1 :=
  (execute_parallel_exactly_once diamondG diamondG_wf diamondG_acyclic
    [0, 0, 0, 0] (by decide)).2 0 (by decide)

/-- Witness for C2 on the diamond: the aggregator (node `3`, logged at
position `3`) has an edge from node `1`, which indeed appears earlier in
the log. -/
theorem edge_ordering_witness :
    1 ∈ (runSched diamondG [0, 0, 0, 0] (initState diamondG)).executed.take 3 :=
  (edge_ordering diamondG diamondG_wf
    (runSched_reach diamondG [0, 0, 0, 0] Relation.ReflTransGen.refl)).1
    3 (by decide) 1 (by decide)

/-- Witness for C3 on the diamond. -/
theorem execute_parallel_postcondition_witness :
    (diamondDag.execute_parallel [0, 0, 0, 0]).remaining = some 0 :=
  (execute_parallel_postcondition Int diamondDag diamondG_wf
    diamondG_acyclic [0, 0, 0, 0] (by decide)
    (by
      intro h
      exact absurd (congrArg List.length h) (by decide))).1

/-! ## Well-formedness of graphs built through the public API -/

/-- Polymorphic `getD`-after-`set` at the written (in-range) index. -/
theorem getD_set_elem {α : Type} (l : List α) {i : Nat} (hi : i < l.length)
    (x d : α) : (l.set i x).getD i d = x := by
  simp [List.getD, List.getElem?_set_eq_of_lt, hi]

/-- Polymorphic `getD`-after-`set` at a different index. -/
theorem getD_set_other {α : Type} (l : List α) {i j : Nat} (h : i ≠ j)
    (x d : α) : (l.set i x).getD j d = l.getD j d := by
  simp [List.getD, List.getElem?_set_ne h]

/-- A freshly constructed graph is well-formed. -/
theorem empty_wf (T : Type) : WfG (DAG.empty T).toGraph := by
  refine ⟨rfl, rfl, ?_, ?_⟩
  · intro u v hv
    simp [DAG.empty, DAG.toGraph, List.getD] at hv
  · intro v hv
    simp [DAG.empty, DAG.toGraph] at hv

/-- `add_node` preserves well-formedness: the new node has an empty
successor list and no edges point at it yet. -/
theorem add_node_wf (T : Type) (d : DAG T) (x : T)
    (hwf : WfG d.toGraph) : WfG (d.add_node x).1.toGraph := by
  have hGn : d.toGraph.n = d.nodes.length := rfl
  have hn : (d.add_node x).1.toGraph.n = d.nodes.length + 1 := by
    simp [DAG.add_node, DAG.toGraph]
  have hadj : (d.add_node x).1.toGraph.adj = d.adj ++ [[]] := rfl
  have hbase : (d.add_node x).1.toGraph.base
      = d.base_indegree ++ [(0 : Int)] := rfl
  have hlenA : d.adj.length = d.nodes.length := hwf.lenAdj
  have hlenB : d.base_indegree.length = d.nodes.length := hwf.lenBase
  refine ⟨?_, ?_, ?_, ?_⟩
  · rw [hadj, hn, List.length_append, hlenA]
    rfl
  · rw [hbase, hn, List.length_append, hlenB]
    rfl
  · intro u v hv
    rw [hadj] at hv
    rw [hn]
    by_cases hu : u < d.adj.length
    · rw [List.getD_append _ _ _ _ hu] at hv
      have hlt := hwf.succLt u v hv
      rw [hGn] at hlt
      omega
    · by_cases hu2 : u = d.adj.length
      · subst hu2
        have hnil : (d.adj ++ [[]]).getD d.adj.length [] = ([] : List Nat) := by
          simp [List.getD, List.getElem?_append_right]
        rw [hnil] at hv
        exact absurd hv (List.not_mem_nil v)
      · have hnil : (d.adj ++ [[]]).getD u [] = ([] : List Nat) := by
          apply List.getD_eq_default
          rw [List.length_append]
          simp
          omega
        rw [hnil] at hv
        exact absurd hv (List.not_mem_nil v)
  · intro v hv
    rw [hn] at hv
    rw [hbase]
    have htot : totalInto (d.add_node x).1.toGraph v
        = totalInto d.toGraph v := by
      rw [totalInto_eq_range_sum, totalInto_eq_range_sum]
      rw [show (d.add_node x).1.toGraph.n = d.toGraph.n + 1 from hn]
      rw [Finset.sum_range_succ]
      have hlast : ((d.add_node x).1.toGraph.adj.getD d.toGraph.n []).count v
          = 0 := by
        rw [hadj]
        have hnil : (d.adj ++ [[]]).getD d.toGraph.n [] = ([] : List Nat) := by
          rw [show d.toGraph.n = d.adj.length from by rw [hlenA]; rfl]
          simp [List.getD, List.getElem?_append_right]
        rw [hnil]
        rfl
      rw [hlast]
      have hcong : ∀ u ∈ Finset.range d.toGraph.n,
          ((d.add_node x).1.toGraph.adj.getD u []).count v
            = (d.toGraph.adj.getD u []).count v := by
        intro u hu
        rw [Finset.mem_range] at hu
        rw [hadj]
        have hu' : u < d.adj.length := by
          rw [hlenA]
          exact hu
        rw [List.getD_append _ _ _ _ hu']
        rfl
      rw [Finset.sum_congr rfl hcong]
      simp
    rw [htot]
    by_cases hv2 : v < d.nodes.length
    · have hsame : (d.base_indegree ++ [(0 : Int)]).getD v 0
          = d.base_indegree.getD v 0 := by
        apply List.getD_append
        rw [hlenB]
        exact hv2
      rw [hsame]
      exact hwf.baseVal v hv2
    · have hveq : v = d.nodes.length := by omega
      subst hveq
      have h1 : (d.base_indegree ++ [(0 : Int)]).getD d.nodes.length 0 = 0 := by
        rw [← hlenB]
        simp [List.getD, List.getElem?_append_right]
      rw [h1]
      have h2 : totalInto d.toGraph d.nodes.length = 0 := by
        rw [totalInto_eq_range_sum]
        apply Finset.sum_eq_zero
        intro u _
        rw [List.count_eq_zero]
        intro hmem
        have hlt := hwf.succLt u _ hmem
        rw [hGn] at hlt
        omega
      rw [h2]
      rfl

/-- `add_edge` preserves well-formedness: the appended successor is in
range and the incremented static in-degree matches the new edge
occurrence. -/
theorem add_edge_wf (T : Type) (d : DAG T) (f t : Nat)
    (hwf : WfG d.toGraph) : WfG (d.add_edge f t).toGraph := by
  by_cases hin : f < d.nodes.length ∧ t < d.nodes.length
  · obtain ⟨hf, ht⟩ := hin
    have hGn : d.toGraph.n = d.nodes.length := rfl
    have hor : ¬(f ≥ d.nodes.length ∨ t ≥ d.nodes.length) := by omega
    have hadj : (d.add_edge f t).toGraph.adj
        = d.adj.set f (d.adj.getD f [] ++ [t]) := by
      simp [DAG.add_edge, DAG.toGraph, hor]
    have hbase : (d.add_edge f t).toGraph.base
        = d.base_indegree.set t (d.base_indegree.getD t 0 + 1) := by
      simp [DAG.add_edge, DAG.toGraph, hor]
    have hn' : (d.add_edge f t).toGraph.n = d.nodes.length := by
      simp [DAG.add_edge, DAG.toGraph, hor]
    have hlenA : d.adj.length = d.nodes.length := hwf.lenAdj
    have hlenB : d.base_indegree.length = d.nodes.length := hwf.lenBase
    have hflen : f < d.adj.length := by
      rw [hlenA]
      exact hf
    have htlen : t < d.base_indegree.length := by
      rw [hlenB]
      exact ht
    refine ⟨?_, ?_, ?_, ?_⟩
    · rw [hadj, hn', List.length_set, hlenA]
    · rw [hbase, hn', List.length_set, hlenB]
    · intro u v hv
      rw [hadj] at hv
      rw [hn']
      by_cases hu : f = u
      · subst hu
        rw [getD_set_elem d.adj hflen _ _] at hv
        rcases List.mem_append.mp hv with h | h
        · have hlt := hwf.succLt f v h
          rw [hGn] at hlt
          exact hlt
        · rw [List.mem_singleton] at h
          subst h
          exact ht
      · rw [getD_set_other d.adj hu _ _] at hv
        have hlt := hwf.succLt u v hv
        rw [hGn] at hlt
        exact hlt
    · intro v hv
      rw [hn'] at hv
      rw [hbase]
      have htot : totalInto (d.add_edge f t).toGraph v
          = totalInto d.toGraph v + [t].count v := by
        rw [totalInto_eq_range_sum, totalInto_eq_range_sum, hGn, hn']
        have hfmem : f ∈ Finset.range d.nodes.length := Finset.mem_range.mpr hf
        rw [Finset.sum_eq_add_sum_diff_singleton hfmem
              (fun u => ((d.add_edge f t).toGraph.adj.getD u []).count v),
            Finset.sum_eq_add_sum_diff_singleton hfmem
              (fun u => (d.toGraph.adj.getD u []).count v)]
        have hterm : ((d.add_edge f t).toGraph.adj.getD f []).count v
            = (d.toGraph.adj.getD f []).count v + [t].count v := by
          rw [hadj, getD_set_elem d.adj hflen _ _]
          show (d.adj.getD f [] ++ [t]).count v = _
          rw [List.count_append]
          rfl
        have hrest : ((Finset.range d.nodes.length) \ {f}).sum
              (fun u => ((d.add_edge f t).toGraph.adj.getD u []).count v)
            = ((Finset.range d.nodes.length) \ {f}).sum
              (fun u => (d.toGraph.adj.getD u []).count v) := by
          apply Finset.sum_congr rfl
          intro u hu
          rw [Finset.mem_sdiff, Finset.mem_singleton] at hu
          rw [hadj, getD_set_other d.adj (fun h => hu.2 h.symm) _ _]
          rfl
        rw [hterm, hrest]
        ring
      rw [htot]
      by_cases hvt : t = v
      · subst hvt
        rw [getD_set_elem d.base_indegree htlen _ _]
        have hbv : d.base_indegree.getD t 0 = (totalInto d.toGraph t : Int) :=
          hwf.baseVal t (by rw [hGn]; exact ht)
        have hone1 : [t].count t = 1 := by simp
        rw [hbv, hone1]
        push_cast
        ring
      · rw [getD_set_other d.base_indegree hvt _ _]
        have hbv : d.base_indegree.getD v 0 = (totalInto d.toGraph v : Int) :=
          hwf.baseVal v (by rw [hGn]; exact hv)
        have hcv : [t].count v = 0 := by
          rw [List.count_eq_zero]
          intro hmem
          rw [List.mem_singleton] at hmem
          exact hvt hmem.symm
        rw [hbv, hcv]
        simp
  · have hor : f ≥ d.nodes.length ∨ t ≥ d.nodes.length := by omega
    have hid : d.add_edge f t = d := by
      simp [DAG.add_edge, hor]
    rw [hid]
    exact hwf

/-- The graphs reachable through the public construction API. -/
inductive Built (T : Type) : DAG T → Prop
  | empty : Built T (DAG.empty T)
  | node (d : DAG T) (x : T) : Built T d → Built T (d.add_node x).1
  | edge (d : DAG T) (f t : Nat) : Built T d → Built T (d.add_edge f t)

/-- Every graph built through the public API is well-formed, so the
well-formedness hypotheses of the execution theorems hold for every
constructible graph. -/
theorem built_wf (T : Type) (d : DAG T) (hb : Built T d) :
    WfG d.toGraph := by
  induction hb with
  | empty => exact empty_wf T
  | node d x _ ih => exact add_node_wf T d x ih
  | edge d f t _ ih => exact add_edge_wf T d f t ih
